import Mathlib

/-!
Verification of `qsrc_strdb.py`: a tool that builds a reverse index from
hashed C/C++ string literals to the names of the functions containing them,
with incremental (digest-based) change detection, pickle persistence and
cooperative interruption.

The embedding models Python strings at character level through `String.data`,
Python sets as `Finset`, and the Python dict `db` as an association list with
unique keys (insertion appends at the end, updates keep the position, as CPython
dicts do).  The two external collaborators — the clang parser and the xxhash
digest — enter as data (the parse result is a field of `SFile`) and as a
function parameter (`get_hash`).  The pickle codec is a `Codec` parameter whose
round-trip contract is a hypothesis where a claim needs it.
-/

namespace Str2Func

/-- Kinds of lexer tokens, mirroring `clang.cindex.TokenKind`. -/
inductive TokenKind where
  | punctuation
  | keyword
  | identifier
  | literal
  | comment
deriving DecidableEq

/-- Cursor kinds from `clang.cindex.CursorKind`, abstracted to the single
discriminator the program tests (`CursorKind.FUNCTION_DECL`) versus all
others. -/
inductive CursorKind where
  | FUNCTION_DECL
  | other
deriving DecidableEq

/-- One lexer token: a kind tag and its raw spelling text. -/
structure Token where
  kind : TokenKind
  spelling : String
deriving DecidableEq

/-- One AST node of the preorder traversal: a kind tag, a name (`spelling`),
and — meaningful for function declarations — the token stream
`node.get_tokens()` of its extent. -/
structure Node where
  kind : CursorKind
  spelling : String
  tokens : List Token
deriving DecidableEq

/-- One source file as seen by `process_file`: `fhash` is the value of
`get_file_hash_xx` on its bytes (the external xxhash file digest, modelled as
an abstract `Nat`), and `nodes` is the preorder traversal
`index.parse(filepath).cursor.walk_preorder()` delivered by the external
clang parser. -/
structure SFile where
  fhash : Nat
  nodes : List Node
deriving DecidableEq

/-- Python `s.startswith('"')` at character level: the first character is a
double quote. -/
def starts_with_quote (s : String) : Bool :=
  match s.data with
  | [] => false
  | c :: _ => decide (c = '"')

/-- Python `len(s)`: the number of characters. -/
def py_len (s : String) : Nat := s.data.length

/-- Python `s[1:-1]`: the string with exactly its first and its last
character removed. -/
def strip_quotes (s : String) : String := String.mk ((s.data.drop 1).dropLast)

/-- Token filter of `process_file` (src lines 102-104): the token kind is
`TokenKind.LITERAL`, the raw spelling starts with a double quote, and the raw
spelling is longer than 12 characters. -/
def qualifying (t : Token) : Bool :=
  decide (t.kind = TokenKind.literal) && starts_with_quote t.spelling
    && decide (12 < py_len t.spelling)

/-- Generator `(token.spelling[1:-1] for token in node.get_tokens() if ...)`
of `process_file`: the stripped spellings of the qualifying tokens of one
node, in stream order. -/
def extract_literals (node : Node) : List String :=
  (node.tokens.filter qualifying).map (fun t => strip_quotes t.spelling)

/-- Reverse index `db`: a Python dict from 64-bit literal digest to a set of
function names, modelled as an association list with unique keys and `Finset`
values. -/
abbrev Db := List (Nat × Finset String)

/-- Python `db[d]` lookup (and `d in db` via `Option.isSome`). -/
def db_find : Db → Nat → Option (Finset String)
  | [], _ => none
  | (k, v) :: t, d => if k = d then some v else db_find t d

/-- Python `db[d] = v`: update in place when the key exists, append at the
end otherwise (CPython dict insertion order). -/
def db_set : Db → Nat → Finset String → Db
  | [], d, v => [(d, v)]
  | (k, w) :: t, d, v => if k = d then (d, v) :: t else (k, w) :: db_set t d v

/-- Lines 105-109 of `process_file`: fold one (literal digest, function name)
pair into the reverse index — insert a singleton set when the digest is
absent, otherwise add the name to the existing set.  This is the `merge`
operation of the design document. -/
def merge (db : Db) (hash_value : Nat) (func_name : String) : Db :=
  match db_find db hash_value with
  | none => db_set db hash_value {func_name}
  | some s => db_set db hash_value (insert func_name s)

/-- State of the two process-wide tables: the reverse index `db` and the set
`fdb` of digests of already-processed files. -/
structure DBState where
  db : Db
  fdb : Finset Nat
deriving DecidableEq

/-- Model of `process_file` (src lines 89-118), restricted to its effect on
the two tables: skip the file when its digest is already in `fdb`; otherwise
fold every qualifying literal of every function-declaration node into `db`
and add the file digest to `fdb`.  `get_hash` is the external 64-bit string
digest (`xxhash.xxh64_digest`); progress printing and the time-based autosave
do not change the tables and are omitted. -/
def process_file (get_hash : String → Nat) (st : DBState) (f : SFile) :
    DBState :=
  if f.fhash ∈ st.fdb then st
  else
    let db' := f.nodes.foldl (fun acc node =>
      if node.kind = CursorKind.FUNCTION_DECL then
        (extract_literals node).foldl
          (fun acc2 s => merge acc2 (get_hash s) node.spelling) acc
      else acc) st.db
    { db := db', fdb := insert f.fhash st.fdb }

/-- File loop of `process_path` (src lines 121-125): before each file the
cooperative interruption flag is consulted and the loop breaks if it is set;
`flag i` is the value the flag holds when file number `i` (1-based, as in
`enumerate(files, 1)`) is about to be processed.  `process_file` itself never
reads the flag. -/
def process_files (get_hash : String → Nat) (flag : Nat → Bool) :
    DBState → List SFile → Nat → DBState
  | st, [], _ => st
  | st, f :: rest, i =>
    if flag i then st
    else process_files get_hash flag (process_file get_hash st f) rest (i + 1)

/-- Number of files the loop completes before the interruption flag is first
seen set, when `n` files remain and the next flag check is number `i`. -/
def stop_count (flag : Nat → Bool) (i : Nat) : Nat → Nat
  | 0 => 0
  | n + 1 => if flag i then 0 else stop_count flag (i + 1) n + 1

/-- External serialization codec (`pickle`), specified only at its interface
boundary: `dump` encodes a table into file content of type `β`, `load`
decodes it.  Round-trip fidelity `load (dump x) = x` is the codec's contract
and appears as a hypothesis where a claim needs it. -/
structure Codec (α β : Type) where
  dump : α → β
  load : β → α

/-- Slice of the file system the program touches: the contents of the
`--strdb` file and of the `--filesdb` file; `none` means the file does not
exist. -/
structure FS (β : Type) where
  strfile : Option β
  filesfile : Option β
deriving DecidableEq

/-- Model of `save_db` (src lines 25-28): open for writing (creating the file
if needed) and dump the table; the value is the resulting file content. -/
def save_db {α β : Type} (c : Codec α β) (x : α) : Option β :=
  some (c.dump x)

/-- Model of `load_db` (src lines 34-38): unpickle the reverse index when the
file exists, else the empty dict. -/
def load_db {β : Type} (c : Codec Db β) : Option β → Db
  | some content => c.load content
  | none => []

/-- Model of `load_fdb` (src lines 40-44): unpickle the file-digest set when
the file exists, else the empty set. -/
def load_fdb {β : Type} (c : Codec (Finset Nat) β) : Option β → Finset Nat
  | some content => c.load content
  | none => ∅

/-- Model of `save_all` (src lines 30-32): write both tables to their files.
Both writes truncate and replace whatever was there. -/
def save_all {β : Type} (cdb : Codec Db β) (cfdb : Codec (Finset Nat) β)
    (st : DBState) : FS β :=
  { strfile := save_db cdb st.db, filesfile := save_db cfdb st.fdb }

/-- Startup load of both tables (src lines 163-164). -/
def load_all {β : Type} (cdb : Codec Db β) (cfdb : Codec (Finset Nat) β)
    (fs : FS β) : DBState :=
  { db := load_db cdb fs.strfile, fdb := load_fdb cfdb fs.filesfile }

/-- One `parse` run (src lines 159-172): reset the tables when `--restart`
was given, otherwise load them; run `process_path`, which returns immediately
when the file enumeration is empty (nonexistent path, or no `.c`/`.cpp` files
found) and otherwise runs the interruptible file loop; then call `save_all()`
unconditionally.  File enumeration (`get_cpp_files`) is abstracted to its
result `files`. -/
def parse_run {β : Type} (cdb : Codec Db β) (cfdb : Codec (Finset Nat) β)
    (get_hash : String → Nat) (restart : Bool) (flag : Nat → Bool)
    (fs : FS β) (files : List SFile) : FS β :=
  let st0 : DBState :=
    if restart then { db := [], fdb := ∅ } else load_all cdb cfdb fs
  let st1 : DBState :=
    if files.isEmpty then st0 else process_files get_hash flag st0 files 1
  save_all cdb cfdb st1

/-- Model of the `find` command (src lines 175-180): digest the query string
and look it up; `none` corresponds to the not-found message. -/
def find_cmd (get_hash : String → Nat) (db : Db) (s : String) :
    Option (Finset String) :=
  db_find db (get_hash s)

/-- Model of the `info` command (src line 189): the number of entries. -/
def info_cmd (db : Db) : Nat := db.length

/-- Crash model of the file write inside `save_db`: `open(filename, 'wb')`
truncates the file in place, after which the encoded table is written
sequentially; if the writing process stops after `j` units of the content
have been written, the file holds exactly that much of the new encoding
(`j ≥` the encoding's length is a completed write). -/
def save_db_stopped {α : Type} (c : Codec α (List Nat)) (x : α) (j : Nat) :
    List Nat :=
  (c.dump x).take j

/-- Implicit invariant of the reverse index: every entry carries a non-empty
set of function names. -/
def db_wf (db : Db) : Prop := ∀ p ∈ db, (p.2 : Finset String).Nonempty

/-! ## Helper lemmas about the dict operations -/

theorem db_find_db_set_self (db : Db) (d : Nat) (v : Finset String) :
    db_find (db_set db d v) d = some v := by
  induction db with
  | nil => simp [db_set, db_find]
  | cons p t ih =>
    obtain ⟨k, w⟩ := p
    by_cases h : k = d <;> simp [db_set, db_find, h, ih]

theorem db_set_db_set_self (db : Db) (d : Nat) (v w : Finset String) :
    db_set (db_set db d v) d w = db_set db d w := by
  induction db with
  | nil => simp [db_set]
  | cons p t ih =>
    obtain ⟨k, u⟩ := p
    by_cases h : k = d <;> simp [db_set, h, ih]

theorem db_wf_db_set (db : Db) (d : Nat) (v : Finset String)
    (hdb : db_wf db) (hv : v.Nonempty) : db_wf (db_set db d v) := by
  induction db with
  | nil => simpa [db_set, db_wf] using hv
  | cons p t ih =>
    obtain ⟨k, u⟩ := p
    rw [db_wf] at hdb
    by_cases h : k = d
    · intro q hq
      rcases List.mem_cons.mp (by simpa [db_set, h] using hq) with h1 | h1
      · simpa [h1] using hv
      · exact hdb q (List.mem_cons_of_mem _ h1)
    · intro q hq
      rcases List.mem_cons.mp (by simpa [db_set, h] using hq) with h1 | h1
      · exact hdb q (by simp [h1])
      · exact ih (fun r hr => hdb r (List.mem_cons_of_mem _ hr)) q h1

theorem db_wf_merge (db : Db) (d : Nat) (n : String) (hdb : db_wf db) :
    db_wf (merge db d n) := by
  rw [merge]
  cases h : db_find db d with
  | none => exact db_wf_db_set db d _ hdb (Finset.singleton_nonempty n)
  | some s => exact db_wf_db_set db d _ hdb (Finset.insert_nonempty n s)

/-! ## Claim theorems -/

/-- C4: `merge(literalDigest, functionName)` inserts a singleton set
`{functionName}` when the digest is absent from the reverse index and
otherwise adds `functionName` to the existing set (expressed uniformly: the
entry afterwards is `insert functionName` of the previous set, `∅` when
absent), and it is idempotent: merging the same (digest, name) pair twice
leaves the index unchanged, the name being a member of the resulting set. -/
theorem C4_merge_semantics (db : Db) (d : Nat) (n : String) :
    db_find (merge db d n) d = some (insert n ((db_find db d).getD ∅))
    ∧ merge (merge db d n) d n = merge db d n
    ∧ n ∈ ((db_find (merge db d n) d).getD ∅) := by
  cases h : db_find db d with
  | none =>
    have hm : merge db d n = db_set db d {n} := by rw [merge, h]
    have hfind : db_find (merge db d n) d = some {n} := by
      rw [hm]; exact db_find_db_set_self db d {n}
    refine ⟨by simpa using hfind, ?_, by simp [hfind]⟩
    rw [hm, merge, db_find_db_set_self db d {n}]
    simp [db_set_db_set_self, Finset.insert_eq_self]
  | some s =>
    have hm : merge db d n = db_set db d (insert n s) := by rw [merge, h]
    have hfind : db_find (merge db d n) d = some (insert n s) := by
      rw [hm]; exact db_find_db_set_self db d (insert n s)
    refine ⟨by simpa using hfind, ?_, by simp [hfind]⟩
    rw [hm, merge, db_find_db_set_self db d (insert n s)]
    simp [db_set_db_set_self, Finset.insert_eq_self]

/-- C1: for every function-declaration node, the literal extraction yields
exactly the stripped spellings of those tokens whose kind is string-literal,
whose raw spelling begins with a double quote and has length exceeding 12;
the downstream text is the raw spelling with exactly its first and last
characters removed and nothing else; consequently a literal written
`"c"` (quotes around content `c`) qualifies iff its content is longer than 10
characters — content length at most 10 is excluded, content length 11 is
included. -/
theorem C1_literal_extraction (node : Node) (s : String) (c : String) :
    (s ∈ extract_literals node ↔
      ∃ t ∈ node.tokens, t.kind = TokenKind.literal
        ∧ starts_with_quote t.spelling = true
        ∧ 12 < py_len t.spelling
        ∧ s = strip_quotes t.spelling)
    ∧ (qualifying ⟨TokenKind.literal, "\"" ++ c ++ "\""⟩ = true ↔ 10 < py_len c)
    ∧ strip_quotes ("\"" ++ c ++ "\"") = c := by
  refine ⟨?_, ?_, ?_⟩
  · simp only [extract_literals, List.mem_map, List.mem_filter, qualifying,
      Bool.and_eq_true, decide_eq_true_eq]
    tauto
  · simp [qualifying, starts_with_quote, py_len]
    omega
  · simp [strip_quotes]

/-- C2: `process_file` skips a file exactly when its digest is already in the
file-digest set (it leaves the state completely unchanged in that case and
changes it otherwise), a processed file's digest is afterwards in the set, and
processing the same unchanged file a second time leaves both tables identical
to their state after the first run. -/
theorem C2_incremental_idempotent (get_hash : String → Nat) (st : DBState)
    (f : SFile) :
    (process_file get_hash st f = st ↔ f.fhash ∈ st.fdb)
    ∧ f.fhash ∈ (process_file get_hash st f).fdb
    ∧ process_file get_hash (process_file get_hash st f) f
        = process_file get_hash st f := by
  by_cases h : f.fhash ∈ st.fdb
  · have heq : process_file get_hash st f = st := by rw [process_file, if_pos h]
    exact ⟨by simp [heq, h], by simpa [heq] using h, by simp [heq]⟩
  · have heq : process_file get_hash st f =
        { db := f.nodes.foldl (fun acc node =>
            if node.kind = CursorKind.FUNCTION_DECL then
              (extract_literals node).foldl
                (fun acc2 s => merge acc2 (get_hash s) node.spelling) acc
            else acc) st.db,
          fdb := insert f.fhash st.fdb } := by
      rw [process_file, if_neg h]
    have hmem : f.fhash ∈ (process_file get_hash st f).fdb := by
      rw [heq]; exact Finset.mem_insert_self _ _
    refine ⟨⟨fun he => ?_, fun he => absurd he h⟩, hmem, ?_⟩
    · exact absurd (he ▸ hmem) h
    · rw [process_file, if_pos hmem]

/-- Token stream of the design document's end-to-end scenario: a function
named `f` whose body holds the single string literal `"0123456789AB"`. -/
def demo_tokens : List Token :=
  [⟨TokenKind.keyword, "void"⟩, ⟨TokenKind.identifier, "f"⟩,
   ⟨TokenKind.punctuation, "("⟩, ⟨TokenKind.punctuation, ")"⟩,
   ⟨TokenKind.literal, "\"0123456789AB\""⟩,
   ⟨TokenKind.punctuation, ";"⟩]

/-- Parse result of the scenario file: one function declaration `f` with the
token stream above. -/
def demo_file : SFile :=
  ⟨77, [⟨CursorKind.FUNCTION_DECL, "f", demo_tokens⟩]⟩

/-- C7: indexing, from an empty index, a file whose function `f` contains the
literal `"0123456789AB"` yields an index with exactly one entry, keyed by
that literal's digest, whose function-name set is `{f}`; and
`find 0123456789AB` reports `f`.  This holds for every string-digest
function, since `find` applies the same digest to the query. -/
theorem C7_end_to_end (get_hash : String → Nat) :
    (process_file get_hash ⟨[], ∅⟩ demo_file).db
        = [(get_hash "0123456789AB", {"f"})]
    ∧ find_cmd get_hash (process_file get_hash ⟨[], ∅⟩ demo_file).db
        "0123456789AB" = some {"f"}
    ∧ info_cmd (process_file get_hash ⟨[], ∅⟩ demo_file).db = 1 := by
  have hlits : extract_literals ⟨CursorKind.FUNCTION_DECL, "f", demo_tokens⟩
      = ["0123456789AB"] := by decide
  have hdb : (process_file get_hash ⟨[], ∅⟩ demo_file).db
      = [(get_hash "0123456789AB", {"f"})] := by
    simp [process_file, demo_file, hlits, merge, db_find, db_set]
  refine ⟨hdb, ?_, ?_⟩
  · rw [find_cmd, hdb]; simp [db_find]
  · rw [info_cmd, hdb]; rfl

/-! ## Persistence -/

theorem load_all_save_all {β : Type} (cdb : Codec Db β)
    (cfdb : Codec (Finset Nat) β)
    (h1 : ∀ x, cdb.load (cdb.dump x) = x)
    (h2 : ∀ x, cfdb.load (cfdb.dump x) = x) (st : DBState) :
    load_all cdb cfdb (save_all cdb cfdb st) = st := by
  simp [load_all, save_all, save_db, load_db, load_fdb, h1, h2]

/-- Concrete round-tripping codec instance for the reverse index, used to
instantiate codec-parametric theorems on closed inputs. -/
def codec_db : Codec Db (Db ⊕ Finset Nat) where
  dump := Sum.inl
  load := fun b => match b with | Sum.inl x => x | Sum.inr _ => []

/-- Concrete round-tripping codec instance for the file-digest set. -/
def codec_fdb : Codec (Finset Nat) (Db ⊕ Finset Nat) where
  dump := Sum.inr
  load := fun b => match b with | Sum.inl _ => ∅ | Sum.inr x => x

/-- C9: persistence round-trips — for every value of either table, loading
what was just saved reproduces it (`load(save(x)) = x`); after `save_all`
reloading both paths reproduces the exact in-memory state; and loading a path
where no file exists yields the empty default (empty dict for the reverse
index, empty set for the files database). -/
theorem C9_round_trip {β : Type} (cdb : Codec Db β)
    (cfdb : Codec (Finset Nat) β)
    (h1 : ∀ x, cdb.load (cdb.dump x) = x)
    (h2 : ∀ x, cfdb.load (cfdb.dump x) = x) (st : DBState) :
    (∀ x : Db, load_db cdb (save_db cdb x) = x)
    ∧ (∀ y : Finset Nat, load_fdb cfdb (save_db cfdb y) = y)
    ∧ load_all cdb cfdb (save_all cdb cfdb st) = st
    ∧ load_db cdb none = [] ∧ load_fdb cfdb none = ∅ := by
  exact ⟨fun x => by simp [load_db, save_db, h1],
    fun y => by simp [load_fdb, save_db, h2],
    load_all_save_all cdb cfdb h1 h2 st, rfl, rfl⟩

/-- C9 witness: the round-trip theorem applied to a concrete codec pair and a
concrete one-entry state. -/
theorem C9_round_trip_witness :
    (∀ x : Db, load_db codec_db (save_db codec_db x) = x)
    ∧ (∀ y : Finset Nat, load_fdb codec_fdb (save_db codec_fdb y) = y)
    ∧ load_all codec_db codec_fdb
        (save_all codec_db codec_fdb ⟨[(3, {"g"})], {7}⟩) = ⟨[(3, {"g"})], {7}⟩
    ∧ load_db codec_db none = [] ∧ load_fdb codec_fdb none = ∅ :=
  C9_round_trip codec_db codec_fdb (fun _ => rfl) (fun _ => rfl) ⟨[(3, {"g"})], {7}⟩

/-- C3 counterexample: with `--restart`, a `parse` run over an empty file
enumeration (nonexistent path or no qualifying files) still calls
`save_all()` on the emptied tables, so the persisted state after the run
differs from the state before it — the claim's "including when `--restart`
was given" fails. -/
theorem C3_counterexample :
    load_all codec_db codec_fdb
        (parse_run codec_db codec_fdb (fun _ => 0) true (fun _ => false)
          ⟨some (Sum.inl [(1, {"g"})]), some (Sum.inr {7})⟩ [])
      ≠ load_all codec_db codec_fdb
          ⟨some (Sum.inl [(1, {"g"})]), some (Sum.inr {7})⟩ := by
  decide

/-- C3 (amended): on an input error (the path does not exist or no
qualifying `.c`/`.cpp` files are found, i.e. the file enumeration is empty),
a `parse` run without `--restart` terminates with both persisted tables
holding the same contents (as observed by load) as before the run: it writes
back exactly the values it loaded.  With `--restart` this fails — the final
unconditional `save_all()` persists the emptied tables. -/
theorem C3_input_error_preserves_state {β : Type} (cdb : Codec Db β)
    (cfdb : Codec (Finset Nat) β)
    (h1 : ∀ x, cdb.load (cdb.dump x) = x)
    (h2 : ∀ x, cfdb.load (cfdb.dump x) = x)
    (get_hash : String → Nat) (flag : Nat → Bool) (fs : FS β) :
    load_all cdb cfdb (parse_run cdb cfdb get_hash false flag fs [])
      = load_all cdb cfdb fs := by
  rw [parse_run]
  simpa using load_all_save_all cdb cfdb h1 h2 (load_all cdb cfdb fs)

/-- C3 witness: the amended theorem applied to the concrete codec pair and a
concrete file system with one entry in each persisted table. -/
theorem C3_input_error_witness :
    load_all codec_db codec_fdb
        (parse_run codec_db codec_fdb (fun _ => 0) false (fun _ => false)
          ⟨some (Sum.inl [(1, {"g"})]), some (Sum.inr {7})⟩ [])
      = load_all codec_db codec_fdb
          ⟨some (Sum.inl [(1, {"g"})]), some (Sum.inr {7})⟩ :=
  C3_input_error_preserves_state codec_db codec_fdb (fun _ => rfl)
    (fun _ => rfl) (fun _ => 0) (fun _ => false)
    ⟨some (Sum.inl [(1, {"g"})]), some (Sum.inr {7})⟩

/-- C5: a `parse --restart` run starts from empty tables and its final
persisted state is exactly the contribution of the current run — the fold of
the interruptible file loop from the empty state — independently of whatever
the persisted tables held before; every prior entry is discarded. -/
theorem C5_restart_semantics {β : Type} (cdb : Codec Db β)
    (cfdb : Codec (Finset Nat) β)
    (h1 : ∀ x, cdb.load (cdb.dump x) = x)
    (h2 : ∀ x, cfdb.load (cfdb.dump x) = x)
    (get_hash : String → Nat) (flag : Nat → Bool) (fs : FS β)
    (files : List SFile) :
    load_all cdb cfdb (parse_run cdb cfdb get_hash true flag fs files)
      = process_files get_hash flag ⟨[], ∅⟩ files 1 := by
  rw [parse_run]
  cases files with
  | nil =>
    simpa [process_files] using
      load_all_save_all cdb cfdb h1 h2 ⟨[], ∅⟩
  | cons f rest =>
    simpa using load_all_save_all cdb cfdb h1 h2
      (process_files get_hash flag ⟨[], ∅⟩ (f :: rest) 1)

/-- C5 witness: the restart theorem applied to the concrete codec pair, a
file system holding prior entries, and a one-file enumeration. -/
theorem C5_restart_witness :
    load_all codec_db codec_fdb
        (parse_run codec_db codec_fdb (fun _ => 0) true (fun _ => false)
          ⟨some (Sum.inl [(1, {"g"})]), some (Sum.inr {7})⟩ [⟨5, []⟩])
      = process_files (fun _ => 0) (fun _ => false) ⟨[], ∅⟩ [⟨5, []⟩] 1 :=
  C5_restart_semantics codec_db codec_fdb (fun _ => rfl) (fun _ => rfl)
    (fun _ => 0) (fun _ => false)
    ⟨some (Sum.inl [(1, {"g"})]), some (Sum.inr {7})⟩ [⟨5, []⟩]

/-! ## Interruption -/

theorem stop_count_le (flag : Nat → Bool) (i n : Nat) :
    stop_count flag i n ≤ n := by
  induction n generalizing i with
  | zero => simp [stop_count]
  | succ n ih =>
    rw [stop_count]
    by_cases h : flag i
    · simp [h]
    · rw [if_neg h]
      exact Nat.succ_le_succ (ih (i + 1))

theorem stop_count_flag_false (flag : Nat → Bool) (i n j : Nat)
    (hj : j < stop_count flag i n) : flag (i + j) = false := by
  induction n generalizing i j with
  | zero => simp [stop_count] at hj
  | succ n ih =>
    rw [stop_count] at hj
    by_cases h : flag i
    · simp [h] at hj
    · rw [if_neg h] at hj
      cases j with
      | zero => simpa using h
      | succ j =>
        have := ih (i + 1) j (by omega)
        have harith : i + 1 + j = i + (j + 1) := by omega
        rwa [harith] at this

theorem process_files_eq_foldl (get_hash : String → Nat) (flag : Nat → Bool)
    (st : DBState) (files : List SFile) (i : Nat) :
    process_files get_hash flag st files i
      = List.foldl (process_file get_hash) st
          (files.take (stop_count flag i files.length)) := by
  induction files generalizing st i with
  | nil => simp [process_files, stop_count]
  | cons f rest ih =>
    by_cases h : flag i
    · simp [process_files, stop_count, h]
    · simp [process_files, stop_count, h, ih]

theorem fdb_mono_process_file (get_hash : String → Nat) (st : DBState)
    (f : SFile) : st.fdb ⊆ (process_file get_hash st f).fdb := by
  rw [process_file]
  by_cases h : f.fhash ∈ st.fdb
  · simp [h]
  · rw [if_neg h]
    exact Finset.subset_insert _ _

theorem mem_fdb_process_file (get_hash : String → Nat) (st : DBState)
    (f : SFile) : f.fhash ∈ (process_file get_hash st f).fdb := by
  rw [process_file]
  by_cases h : f.fhash ∈ st.fdb <;> simp [h]

theorem fdb_mono_foldl (get_hash : String → Nat) (st : DBState)
    (l : List SFile) :
    st.fdb ⊆ (List.foldl (process_file get_hash) st l).fdb := by
  induction l generalizing st with
  | nil => simp
  | cons f rest ih =>
    exact (fdb_mono_process_file get_hash st f).trans
      (by simpa using ih (process_file get_hash st f))

theorem mem_fdb_foldl (get_hash : String → Nat) (st : DBState)
    (l : List SFile) (f : SFile) (hf : f ∈ l) :
    f.fhash ∈ (List.foldl (process_file get_hash) st l).fdb := by
  induction l generalizing st with
  | nil => cases hf
  | cons g rest ih =>
    rw [List.foldl_cons]
    rcases List.mem_cons.mp hf with rfl | h
    · exact fdb_mono_foldl get_hash (process_file get_hash st f) rest
        (mem_fdb_process_file get_hash st f)
    · exact ih (process_file get_hash st g) h

theorem load_parse_run {β : Type} (cdb : Codec Db β)
    (cfdb : Codec (Finset Nat) β)
    (h1 : ∀ x, cdb.load (cdb.dump x) = x)
    (h2 : ∀ x, cfdb.load (cfdb.dump x) = x)
    (get_hash : String → Nat) (restart : Bool) (flag : Nat → Bool)
    (fs : FS β) (files : List SFile) :
    load_all cdb cfdb (parse_run cdb cfdb get_hash restart flag fs files)
      = process_files get_hash flag
          (if restart then ⟨[], ∅⟩ else load_all cdb cfdb fs) files 1 := by
  rw [parse_run]
  cases files with
  | nil => simpa [process_files] using load_all_save_all cdb cfdb h1 h2 _
  | cons f rest => simpa using load_all_save_all cdb cfdb h1 h2 _

/-- C6: cancellation is cooperative and file-granular.  Every `parse` run
stops the loop after some prefix of the enumeration: at every boundary it
crossed the interruption flag was observed unset, the final state is exactly
the fold of whole-file `process_file` steps over that prefix (a begun file is
always completed — its digest and all its qualifying literals are fully
folded in), and `save_all()` still runs, so the persisted state a subsequent
load observes is exactly that state, every completed file's digest
included. -/
theorem C6_cooperative_interruption {β : Type} (cdb : Codec Db β)
    (cfdb : Codec (Finset Nat) β)
    (h1 : ∀ x, cdb.load (cdb.dump x) = x)
    (h2 : ∀ x, cfdb.load (cfdb.dump x) = x)
    (get_hash : String → Nat) (restart : Bool) (flag : Nat → Bool)
    (fs : FS β) (files : List SFile) :
    ∃ k ≤ files.length,
      (∀ j < k, flag (1 + j) = false)
      ∧ load_all cdb cfdb (parse_run cdb cfdb get_hash restart flag fs files)
          = List.foldl (process_file get_hash)
              (if restart then ⟨[], ∅⟩ else load_all cdb cfdb fs)
              (files.take k)
      ∧ ∀ f ∈ files.take k,
          f.fhash ∈ (load_all cdb cfdb
            (parse_run cdb cfdb get_hash restart flag fs files)).fdb := by
  refine ⟨stop_count flag 1 files.length,
    stop_count_le flag 1 files.length,
    fun j hj => stop_count_flag_false flag 1 files.length j hj, ?_, ?_⟩
  · rw [load_parse_run cdb cfdb h1 h2, process_files_eq_foldl]
  · intro f hf
    rw [load_parse_run cdb cfdb h1 h2, process_files_eq_foldl]
    exact mem_fdb_foldl get_hash _ _ f hf

/-- C6 witness: the interruption theorem applied to the concrete codec pair,
an uninterrupted flag, and a one-file enumeration. -/
theorem C6_cooperative_witness :
    ∃ k ≤ [(⟨5, []⟩ : SFile)].length,
      (∀ j < k, (fun _ : Nat => false) (1 + j) = false)
      ∧ load_all codec_db codec_fdb
          (parse_run codec_db codec_fdb (fun _ => 0) true (fun _ => false)
            ⟨none, none⟩ [⟨5, []⟩])
          = List.foldl (process_file (fun _ => 0)) ⟨[], ∅⟩
              ([(⟨5, []⟩ : SFile)].take k)
      ∧ ∀ f ∈ [(⟨5, []⟩ : SFile)].take k,
          f.fhash ∈ (load_all codec_db codec_fdb
            (parse_run codec_db codec_fdb (fun _ => 0) true (fun _ => false)
              ⟨none, none⟩ [⟨5, []⟩])).fdb :=
  C6_cooperative_interruption codec_db codec_fdb (fun _ => rfl) (fun _ => rfl)
    (fun _ => 0) true (fun _ => false) ⟨none, none⟩ [⟨5, []⟩]

/-! ## Crash model of a save -/

/-- C8 counterexample: the claim that every stop point of a save leaves the
file holding either the previous content or the complete new encoding fails.
`save_db` truncates the file in place (`open(filename, 'wb')`) and writes the
encoding sequentially: with previous content `[0]` and new encoding `[1, 2]`,
stopping after one unit leaves `[1]`, which is neither — a partial-table
write observable by a subsequent load. -/
theorem C8_counterexample :
    ¬ (∀ j < 3,
        save_db_stopped (⟨id, id⟩ : Codec (List Nat) (List Nat)) [1, 2] j
            = [0]
        ∨ save_db_stopped (⟨id, id⟩ : Codec (List Nat) (List Nat)) [1, 2] j
            = [1, 2]) := by
  decide

/-- C8 (amended): a save that runs to completion is faithful — loading the
completely written file returns exactly the saved table — but the write is
not all-or-nothing: it truncates in place, and a process stopped strictly
before the end leaves content that differs from the full new encoding (a
partial-table write is observable). -/
theorem C8_save_not_atomic {α : Type} (c : Codec α (List Nat))
    (hrt : ∀ x, c.load (c.dump x) = x) (x : α) (j : Nat)
    (hj : j < (c.dump x).length) :
    c.load (save_db_stopped c x (c.dump x).length) = x
    ∧ save_db_stopped c x j ≠ c.dump x := by
  constructor
  · simpa [save_db_stopped] using hrt x
  · intro h
    have hlen := congrArg List.length h
    rw [save_db_stopped, List.length_take] at hlen
    omega

/-- C8 witness: the amended theorem applied to the identity codec, the table
value `[1, 2]`, and stop point 1. -/
theorem C8_save_not_atomic_witness :
    (⟨id, id⟩ : Codec (List Nat) (List Nat)).load
        (save_db_stopped (⟨id, id⟩ : Codec (List Nat) (List Nat)) [1, 2]
          ((⟨id, id⟩ : Codec (List Nat) (List Nat)).dump [1, 2]).length)
      = [1, 2]
    ∧ save_db_stopped (⟨id, id⟩ : Codec (List Nat) (List Nat)) [1, 2] 1
        ≠ (⟨id, id⟩ : Codec (List Nat) (List Nat)).dump [1, 2] :=
  C8_save_not_atomic ⟨id, id⟩ (fun _ => rfl) [1, 2] 1 (by decide)

/-! ## Non-empty-set invariant -/

theorem db_wf_foldl_merge (get_hash : String → Nat) (name : String)
    (l : List String) (db : Db) (h : db_wf db) :
    db_wf (l.foldl (fun acc s => merge acc (get_hash s) name) db) := by
  induction l generalizing db with
  | nil => simpa using h
  | cons s rest ih => exact ih _ (db_wf_merge _ _ _ h)

theorem db_wf_foldl_nodes (get_hash : String → Nat) (nodes : List Node)
    (db : Db) (h : db_wf db) :
    db_wf (nodes.foldl (fun acc node =>
      if node.kind = CursorKind.FUNCTION_DECL then
        (extract_literals node).foldl
          (fun acc2 s => merge acc2 (get_hash s) node.spelling) acc
      else acc) db) := by
  induction nodes generalizing db with
  | nil => simpa using h
  | cons node rest ih =>
    rw [List.foldl_cons]
    by_cases hk : node.kind = CursorKind.FUNCTION_DECL
    · rw [if_pos hk]
      exact ih _ (db_wf_foldl_merge get_hash node.spelling _ db h)
    · rw [if_neg hk]
      exact ih db h

theorem db_wf_process_file (get_hash : String → Nat) (st : DBState)
    (f : SFile) (h : db_wf st.db) :
    db_wf (process_file get_hash st f).db := by
  rw [process_file]
  by_cases hm : f.fhash ∈ st.fdb
  · simpa [hm] using h
  · rw [if_neg hm]
    exact db_wf_foldl_nodes get_hash f.nodes st.db h

theorem db_wf_process_files (get_hash : String → Nat) (flag : Nat → Bool)
    (st : DBState) (files : List SFile) (i : Nat) (h : db_wf st.db) :
    db_wf (process_files get_hash flag st files i).db := by
  induction files generalizing st i with
  | nil => simpa [process_files] using h
  | cons f rest ih =>
    rw [process_files]
    by_cases hf : flag i
    · simpa [hf] using h
    · rw [if_neg hf]
      exact ih _ _ (db_wf_process_file get_hash st f h)

/-- C10: every digest key present in the reverse index maps to a non-empty
set of function names.  The empty index satisfies the invariant, `merge` only
ever stores `insert`-ed (hence non-empty) sets, and the whole interruptible
file loop preserves the invariant; no operation of any command removes names
or inserts an empty set, so every reachable index state satisfies it. -/
theorem C10_nonempty_sets (get_hash : String → Nat) (flag : Nat → Bool)
    (st : DBState) (files : List SFile) (i : Nat) (db : Db) (d : Nat)
    (n : String) (h : db_wf st.db) (hdb : db_wf db) :
    db_wf ([] : Db)
    ∧ db_wf (merge db d n)
    ∧ db_wf (process_files get_hash flag st files i).db :=
  ⟨fun p hp => absurd hp (List.not_mem_nil p),
    db_wf_merge db d n hdb,
    db_wf_process_files get_hash flag st files i h⟩

/-- C10 witness: the invariant theorem applied to a concrete state, file list
and index entry. -/
theorem C10_nonempty_sets_witness :
    db_wf ([] : Db)
    ∧ db_wf (merge [(2, {"h"})] 9 "g")
    ∧ db_wf (process_files (fun _ => 0) (fun _ => false) ⟨[], ∅⟩
        [⟨5, [⟨CursorKind.FUNCTION_DECL, "g",
          [⟨TokenKind.literal, "\"abcdefghijkl\""⟩]⟩]⟩] 1).db :=
  C10_nonempty_sets (fun _ => 0) (fun _ => false) ⟨[], ∅⟩
    [⟨5, [⟨CursorKind.FUNCTION_DECL, "g",
      [⟨TokenKind.literal, "\"abcdefghijkl\""⟩]⟩]⟩] 1 [(2, {"h"})] 9 "g"
    (by simp [db_wf]) (by simp [db_wf])

end Str2Func
